import Mathlib

/-!
Verification of the schedule-conflict and timetable-construction core of the
PKU-Course-Election application (`app.py`, with the catalog-merge step shared
with `convert_data.py`).

The Python source works on raw text (meeting-time strings such as
"周一1-2，周三3-4双"), lists of course dictionaries, and a 7-day x 12-period
timetable built as nested dicts.  The shallow embedding below models:

* raw strings as `List Char` (Python `str` is a sequence of characters;
  `str.split`, `str.replace`, `str.startswith` become the corresponding
  explicit character-list functions);
* Python `int(...)` applied to the pieces of a period range as a plain
  decimal-digit parser (`digitsToNat`).  `int` accepts a handful of exotic
  shapes (leading `+`, surrounding whitespace, underscores, non-ASCII
  decimal digits) that never arise from the closed day/period vocabulary
  and play no role in any claim; on every string made of ASCII characters
  without those decorations the model agrees with `int`;
* places where the Python code can raise (dict `KeyError` in
  `create_timetable`, `ValueError` from `float(...)` in the credit sum) as
  `Option`: `none` is "raises", `some` is the value returned;
* `pandas` course rows as a `Course` structure; a credit cell is
  `CreditVal` (a number, a text cell, or a missing key);
* the session state mutation in `main` (append on enrol, `pop` on cancel)
  as the inductive relation `Reachable`.
-/

/-- Day of week, the closed vocabulary of `day_map` in `parse_time`. -/
inductive Day where
  | mon | tue | wed | thu | fri | sat | sun
  deriving DecidableEq, Repr

/-- Week parity of a slot: `'all'`, `'odd'` (单) or `'even'` (双) in `parse_time`. -/
inductive WeekType where
  | all | odd | even
  deriving DecidableEq, Repr

/-- One parsed meeting slot, the dict
`{'day': ..., 'start_period': ..., 'end_period': ..., 'week_type': ...}`
built by `parse_time`. -/
structure TimeSlot where
  day : Day
  startPeriod : Nat
  endPeriod : Nat
  weekType : WeekType
  deriving DecidableEq, Repr

/-- The value of the credits cell `参考学分` of a course row: a number, an
arbitrary text cell, or an absent key (Python `dict.get` default case). -/
inductive CreditVal where
  | num (q : ℚ)
  | text (s : String)
  | missing
  deriving DecidableEq, Repr

/-- One course row / enrollable section: the fields of a catalog row that the
core logic reads (`课程号`, `班号`, `院系`, `课程名`, `参考学分`, `上课时间`,
`修读对象`).  The raw meeting string is kept as a character list. -/
structure Course where
  courseId : String
  classId : String
  dept : String
  title : String
  credit : CreditVal
  time : List Char
  elig : String
  deriving DecidableEq, Repr

/-- Degree type selected in the sidebar: single (cap 25) or double (cap 30). -/
inductive DegreeType where
  | single | double
  deriving DecidableEq, Repr

/-! ### Character-list utilities mirroring the Python string operations -/

/-- `s.split(sep)` for a single-character separator.  `''.split(x) = ['']`,
and every separator occurrence produces a boundary, exactly as in Python. -/
def splitOnChar (sep : Char) : List Char → List (List Char)
  | [] => [[]]
  | c :: rest =>
    let r := splitOnChar sep rest
    if c = sep then [] :: r
    else
      match r with
      | [] => [[c]]
      | p :: ps => (c :: p) :: ps

/-- Accumulator loop of the decimal parser. -/
def digitsVal (acc : Nat) : List Char → Option Nat
  | [] => some acc
  | c :: rest => if c.isDigit then digitsVal (acc * 10 + (c.toNat - 48)) rest else none

/-- Python `int(s)` restricted to plain ASCII decimal strings: `some` of the
value on a non-empty all-digit string, `none` (a `ValueError`) otherwise. -/
def digitsToNat : List Char → Option Nat
  | [] => none
  | l => digitsVal 0 l

/-- `s.startswith(t)` on character lists. -/
def startsWith : List Char → List Char → Bool
  | _, [] => true
  | [], _ :: _ => false
  | c :: cs, t :: ts => if c = t then startsWith cs ts else false

/-! ### The parser `parse_time` -/

/-- The token of each day, the keys of `day_map` in `parse_time`. -/
def dayToken : Day → List Char
  | .mon => ['周', '一']
  | .tue => ['周', '二']
  | .wed => ['周', '三']
  | .thu => ['周', '四']
  | .fri => ['周', '五']
  | .sat => ['周', '六']
  | .sun => ['周', '日']

/-- `day_map` in insertion order (Python dicts iterate in insertion order). -/
def dayMap : List (List Char × Day) :=
  [(dayToken .mon, .mon), (dayToken .tue, .tue), (dayToken .wed, .wed),
   (dayToken .thu, .thu), (dayToken .fri, .fri), (dayToken .sat, .sat),
   (dayToken .sun, .sun)]

/-- The `for chinese_day, english_day in day_map.items()` loop: first token
that is a prefix of the clause wins; the token is stripped. -/
def stripDayGo (l : List Char) : List (List Char × Day) → Option (Day × List Char)
  | [] => none
  | (tok, d) :: rest =>
    if startsWith l tok then some (d, l.drop tok.length) else stripDayGo l rest

/-- Day matching step of `parse_time`: `day = None; for ...: if slot.startswith(...)`. -/
def stripDay (l : List Char) : Option (Day × List Char) := stripDayGo l dayMap

/-- Day/period half of the loop body of `parse_time`, applied to the clause
text after the parity marker has been handled: match and strip a day token,
require the remainder to split on `-` into exactly two pieces both accepted
by `int` (the `start_period, end_period = map(int, slot.split('-'))` line,
whose `ValueError` — non-numeric piece or a piece count other than two — is
caught and drops the clause). -/
def parseDayPeriods (wt : WeekType) (txt : List Char) : Option TimeSlot :=
  match stripDay txt with
  | none => none
  | some (d, s2) =>
    if '-' ∈ s2 then
      match splitOnChar '-' s2 with
      | [p1, p2] =>
        match digitsToNat p1, digitsToNat p2 with
        | some a, some b => some ⟨d, a, b, wt⟩
        | _, _ => none
      | _ => none
    else none

/-- The body of the `for slot in slots` loop of `parse_time`: parse one
comma-separated clause, `none` when the clause is dropped.

Mirrors the source exactly: the odd marker `单` is tested by containment
first (and if present, every occurrence is removed — `slot.replace`);
otherwise the even marker `双` is tested (and removed); the remaining text
is then handed to the day/period half. -/
def parseClause (clause : List Char) : Option TimeSlot :=
  if '单' ∈ clause then parseDayPeriods .odd (clause.filter (fun c => c ≠ '单'))
  else if '双' ∈ clause then parseDayPeriods .even (clause.filter (fun c => c ≠ '双'))
  else parseDayPeriods .all clause

/-- `parse_time`: split the raw meeting string on the full-width comma and
parse each clause, dropping malformed clauses.  (The `pd.isna` guard of the
source returns `[]` for a missing cell; a missing cell is simply not
representable here, every meeting string is a character list.) -/
def parse_time (timeStr : List Char) : List TimeSlot :=
  (splitOnChar '，' timeStr).filterMap parseClause

/-- Convenience wrapper for concrete examples. -/
def parseTimeStr (s : String) : List TimeSlot := parse_time s.data

/-! ### The conflict detector `check_conflict` -/

/-- The three `continue` tests of the innermost loop of `check_conflict`, as
one boolean: `false` exactly when one of the `continue`s fires. -/
def conflictTest (a b : TimeSlot) : Bool :=
  if a.day ≠ b.day then false
  else if ¬ (a.startPeriod ≤ b.endPeriod ∧ a.endPeriod ≥ b.startPeriod) then false
  else if (a.weekType = WeekType.odd ∧ b.weekType = WeekType.even) ∨
          (a.weekType = WeekType.even ∧ b.weekType = WeekType.odd) then false
  else true

/-- The two nested slot loops: does any (candidate slot, enrolled slot) pair
conflict?  (`return` at the first conflicting pair is observationally the
same as this double `any` because the returned value does not depend on the
pair.) -/
def slotsConflict (ns es : List TimeSlot) : Bool :=
  ns.any (fun a => es.any (fun b => conflictTest a b))

/-- The `for course in selected_courses` loop of `check_conflict`. -/
def checkLoop (ns : List TimeSlot) : List Course → Option String
  | [] => none
  | c :: rest =>
    let es := parse_time c.time
    if es = [] then checkLoop ns rest
    else if slotsConflict ns es then some c.title
    else checkLoop ns rest

/-- `check_conflict(new_course_time, selected_courses)`: returns the title
(`课程名`) of the first enrolled course with a conflicting slot pair, `None`
otherwise; candidates with no parsed slots exit early with `None`. -/
def check_conflict (cand : List Char) (selected : List Course) : Option String :=
  let ns := parse_time cand
  if ns = [] then none else checkLoop ns selected

/-! ### Quick sanity examples (spec §8 scenarios) -/

example : parseTimeStr "周一1-2" = [⟨.mon, 1, 2, .all⟩] := by decide
example : parseTimeStr "周二1-2单，周四3-4单" =
    [⟨.tue, 1, 2, .odd⟩, ⟨.thu, 3, 4, .odd⟩] := by decide
example : parseTimeStr "周三1-2双" = [⟨.wed, 1, 2, .even⟩] := by decide
example : parseTimeStr "" = [] := by decide
example : parseTimeStr "周一x-2" = [] := by decide
example : parseTimeStr "3-4" = [] := by decide

/-! ### Spec-side overlap predicate and the refinement of `check_conflict` -/

/-- The spec's three-way overlap test between a candidate slot and an
enrolled slot: same day, inclusive period ranges intersect
(`candidate.start ≤ enrolled.end` and `candidate.end ≥ enrolled.start`),
and the parities are not the complementary Odd/Even pair. -/
def overlapSpec (a b : TimeSlot) : Prop :=
  a.day = b.day ∧ a.startPeriod ≤ b.endPeriod ∧ a.endPeriod ≥ b.startPeriod ∧
    ¬ ((a.weekType = WeekType.odd ∧ b.weekType = WeekType.even) ∨
       (a.weekType = WeekType.even ∧ b.weekType = WeekType.odd))

instance (a b : TimeSlot) : Decidable (overlapSpec a b) := by
  unfold overlapSpec; infer_instance

lemma conflictTest_iff (a b : TimeSlot) : conflictTest a b = true ↔ overlapSpec a b := by
  unfold conflictTest overlapSpec
  by_cases h1 : a.day = b.day
  · by_cases h2 : a.startPeriod ≤ b.endPeriod ∧ a.endPeriod ≥ b.startPeriod
    · by_cases h3 : (a.weekType = WeekType.odd ∧ b.weekType = WeekType.even) ∨
          (a.weekType = WeekType.even ∧ b.weekType = WeekType.odd)
      · simp [h1, h2.1, h2.2, h3]
      · simp [h1, h2.1, h2.2, h3]
    · simp [h1, h2]; tauto
  · simp [h1]

lemma slotsConflict_iff (ns es : List TimeSlot) :
    slotsConflict ns es = true ↔ ∃ a ∈ ns, ∃ b ∈ es, overlapSpec a b := by
  simp [slotsConflict, List.any_eq_true, conflictTest_iff]

lemma check_conflict_eq_find (cand : List Char) (selected : List Course) :
    check_conflict cand selected =
      (selected.find? (fun c => slotsConflict (parse_time cand) (parse_time c.time))).map
        (fun c => c.title) := by
  unfold check_conflict
  by_cases hns : parse_time cand = []
  · rw [eq_comm]
    simp [hns, Option.map_eq_none', List.find?_eq_none, slotsConflict]
  · simp only [if_neg hns]
    induction selected with
    | nil => simp [checkLoop]
    | cons c rest ih =>
      rw [checkLoop]
      by_cases hes : parse_time c.time = []
      · simp [hes, List.find?_cons, slotsConflict, ih]
      · by_cases hsc : slotsConflict (parse_time cand) (parse_time c.time) = true
        · simp [hes, List.find?_cons, hsc]
        · simp only [Bool.not_eq_true] at hsc
          simp [hes, List.find?_cons, hsc, ih]

/-- C1: for every candidate meeting string and enrolled sequence,
`check_conflict` returns exactly the first enrolled course, in insertion
order, that has a slot overlapping some candidate slot — where overlap is
the spec's three-way test (`overlapSpec`: day equality, inclusive period
intersection, parities not the complementary Odd/Even pair) — identified by
its title, and returns `none` when no enrolled course overlaps. -/
theorem c1_conflict_first_match (cand : List Char) (selected : List Course) :
    check_conflict cand selected =
      (selected.find? (fun c =>
        decide (∃ a ∈ parse_time cand, ∃ b ∈ parse_time c.time, overlapSpec a b))).map
        (fun c => c.title) := by
  rw [check_conflict_eq_find]
  have hfun : (fun c => slotsConflict (parse_time cand) (parse_time c.time)) =
      (fun c : Course =>
        decide (∃ a ∈ parse_time cand, ∃ b ∈ parse_time c.time, overlapSpec a b)) := by
    funext c
    by_cases h : ∃ a ∈ parse_time cand, ∃ b ∈ parse_time c.time, overlapSpec a b
    · simp [h, (slotsConflict_iff _ _).mpr h]
    · have hf : slotsConflict (parse_time cand) (parse_time c.time) = false := by
        rw [← Bool.not_eq_true, slotsConflict_iff]
        exact h
      simp [h, hf]
  rw [hfun]

/-- C2: a candidate whose meeting string yields no parseable slots never
conflicts: `check_conflict` returns `none` for every enrolled sequence. -/
theorem c2_no_slots_no_conflict (cand : List Char) (selected : List Course)
    (h : parse_time cand = []) : check_conflict cand selected = none := by
  simp [check_conflict, h]

/-- A concrete catalog course used by several witnesses. -/
def demoCourse : Course :=
  ⟨"CS101", "01", "计算机学院", "计算机基础", .num 3, "周一1-2".data, "计算机学院学生"⟩

theorem c2_no_slots_no_conflict_witness :
    parse_time "待定".data = [] ∧ check_conflict "待定".data [demoCourse] = none :=
  ⟨by decide, c2_no_slots_no_conflict "待定".data [demoCourse] (by decide)⟩

/-! ### Structural lemmas about the string utilities -/

lemma splitOnChar_of_not_mem (sep : Char) (l : List Char) (h : sep ∉ l) :
    splitOnChar sep l = [l] := by
  induction l with
  | nil => rfl
  | cons c rest ih =>
    have hc : c ≠ sep := fun hc => h (hc ▸ List.mem_cons_self c rest)
    have hr : sep ∉ rest := fun hm => h (List.mem_cons_of_mem c hm)
    simp [splitOnChar, hc, ih hr]

lemma splitOnChar_append (sep : Char) (xs ys : List Char) (h : sep ∉ xs) :
    splitOnChar sep (xs ++ sep :: ys) = xs :: splitOnChar sep ys := by
  induction xs with
  | nil => simp [splitOnChar]
  | cons c rest ih =>
    have hc : c ≠ sep := fun hc => h (hc ▸ List.mem_cons_self c rest)
    have hr : sep ∉ rest := fun hm => h (List.mem_cons_of_mem c hm)
    simp only [List.cons_append, splitOnChar, List.append_eq, ih hr, if_neg hc]

lemma exists_mem_splitOnChar (sep c : Char) (l : List Char)
    (hc : c ∈ l) (hne : c ≠ sep) : ∃ p ∈ splitOnChar sep l, c ∈ p := by
  induction l with
  | nil => cases hc
  | cons x rest ih =>
    by_cases hx : x = sep
    · rcases List.mem_cons.mp hc with h | h
      · exact absurd (h.trans hx) hne
      · rcases ih h with ⟨p, hp, hcp⟩
        exact ⟨p, by simp [splitOnChar, hx, hp], hcp⟩
    · rcases List.mem_cons.mp hc with h | h
      · subst h
        cases hr : splitOnChar sep rest with
        | nil => exact ⟨[c], by simp [splitOnChar, hx, hr], by simp⟩
        | cons p ps => exact ⟨c :: p, by simp [splitOnChar, hx, hr], by simp⟩
      · rcases ih h with ⟨p, hp, hcp⟩
        cases hr : splitOnChar sep rest with
        | nil => rw [hr] at hp; cases hp
        | cons p0 ps =>
          rw [hr] at hp
          rcases List.mem_cons.mp hp with hh | hh
          · exact ⟨x :: p0, by simp [splitOnChar, hx, hr], by
              subst hh; exact List.mem_cons_of_mem x hcp⟩
          · exact ⟨p, by simp [splitOnChar, hx, hr, hh], hcp⟩

lemma digitsVal_isDigit (l : List Char) : ∀ (acc n : Nat), digitsVal acc l = some n →
    ∀ c ∈ l, c.isDigit = true := by
  induction l with
  | nil => intro acc n _ c hc; cases hc
  | cons x rest ih =>
    intro acc n h c hc
    by_cases hx : x.isDigit
    · rcases List.mem_cons.mp hc with hh | hh
      · exact hh ▸ hx
      · rw [digitsVal, if_pos hx] at h
        exact ih _ _ h c hh
    · rw [digitsVal, if_neg hx] at h
      cases h

lemma digitsToNat_isDigit (l : List Char) (n : Nat) (h : digitsToNat l = some n) :
    ∀ c ∈ l, c.isDigit = true := by
  cases l with
  | nil => intro c hc; cases hc
  | cons x rest => exact digitsVal_isDigit _ _ _ h

lemma startsWith_nil (l : List Char) : startsWith l [] = true := by
  cases l <;> rfl

lemma startsWith_self_append (tok l : List Char) : startsWith (tok ++ l) tok = true := by
  induction tok with
  | nil => exact startsWith_nil l
  | cons t ts ih => simp [startsWith, ih]

lemma startsWith_decomp (tok : List Char) : ∀ (l : List Char),
    startsWith l tok = true → l = tok ++ l.drop tok.length := by
  induction tok with
  | nil => intro l _; simp
  | cons t ts ih =>
    intro l h
    cases l with
    | nil => cases h
    | cons c cs =>
      rw [startsWith] at h
      by_cases hc : c = t
      · rw [if_pos hc] at h
        subst hc
        simpa using ih cs h
      · rw [if_neg hc] at h; cases h

lemma startsWith_two (a b c1 c2 : Char) (l : List Char) :
    startsWith (a :: b :: l) [c1, c2] = (decide (a = c1) && decide (b = c2)) := by
  by_cases h1 : a = c1 <;> by_cases h2 : b = c2 <;>
    simp [startsWith, h1, h2, startsWith_nil]

lemma stripDay_append (d : Day) (rest : List Char) :
    stripDay (dayToken d ++ rest) = some (d, rest) := by
  cases d <;>
    simp [stripDay, dayMap, stripDayGo, dayToken, startsWith_two, startsWith_self_append]

lemma stripDayGo_some (m : List (List Char × Day)) (l : List Char) (d : Day)
    (r : List Char) (h : stripDayGo l m = some (d, r)) :
    ∃ tok, (tok, d) ∈ m ∧ startsWith l tok = true ∧ r = l.drop tok.length := by
  induction m with
  | nil => cases h
  | cons td m ih =>
    obtain ⟨tok0, d0⟩ := td
    rw [stripDayGo] at h
    by_cases hs : startsWith l tok0 = true
    · rw [if_pos hs] at h
      obtain ⟨hd, hr⟩ := Prod.mk.injEq .. ▸ Option.some.injEq _ _ ▸ h
      exact ⟨tok0, by simp [← hd], hs, hr.symm⟩
    · rw [if_neg hs] at h
      rcases ih h with ⟨tok, hm, hsw, hrr⟩
      exact ⟨tok, List.mem_cons_of_mem _ hm, hsw, hrr⟩

lemma dayMap_token (tok : List Char) (d : Day) (h : (tok, d) ∈ dayMap) :
    tok = dayToken d := by
  simp only [dayMap, List.mem_cons, List.not_mem_nil, or_false] at h
  rcases h with h | h | h | h | h | h | h <;>
    · obtain ⟨h1, h2⟩ := Prod.mk.injEq .. ▸ h
      rw [h1, ← h2]

lemma stripDay_some (l : List Char) (d : Day) (r : List Char)
    (h : stripDay l = some (d, r)) : l = dayToken d ++ r := by
  rcases stripDayGo_some dayMap l d r h with ⟨tok, hm, hsw, hr⟩
  have htok := dayMap_token tok d hm
  subst htok
  rw [hr]
  exact startsWith_decomp _ _ hsw

lemma parseDayPeriods_elim (wt : WeekType) (txt : List Char) (s : TimeSlot)
    (h : parseDayPeriods wt txt = some s) :
    s.weekType = wt ∧ ∃ s2 p1 p2,
      stripDay txt = some (s.day, s2) ∧ '-' ∈ s2 ∧
      splitOnChar '-' s2 = [p1, p2] ∧
      digitsToNat p1 = some s.startPeriod ∧ digitsToNat p2 = some s.endPeriod := by
  unfold parseDayPeriods at h
  rcases hst : stripDay txt with _ | ⟨d, s2⟩ <;> rw [hst] at h
  · cases h
  · dsimp only at h
    by_cases hdash : '-' ∈ s2
    · rw [if_pos hdash] at h
      rcases hsp : splitOnChar '-' s2 with _ | ⟨p1, ps⟩ <;> rw [hsp] at h
      · cases h
      · rcases ps with _ | ⟨p2, ps2⟩
        · cases h
        · rcases ps2 with _ | _
          · dsimp only at h
            rcases hd1 : digitsToNat p1 with _ | a <;> rw [hd1] at h
            · cases h
            · rcases hd2 : digitsToNat p2 with _ | b <;> rw [hd2] at h
              · cases h
              · dsimp only at h
                obtain rfl : (⟨d, a, b, wt⟩ : TimeSlot) = s := Option.some.inj h
                exact ⟨rfl, s2, p1, p2, rfl, hdash, hsp, hd1, hd2⟩
          · cases h
    · rw [if_neg hdash] at h; cases h

lemma parseDayPeriods_wf (wt : WeekType) (d : Day) (as bs : List Char) (a b : Nat)
    (ha : digitsToNat as = some a) (hb : digitsToNat bs = some b) :
    parseDayPeriods wt (dayToken d ++ (as ++ '-' :: bs)) = some ⟨d, a, b, wt⟩ := by
  have hda : '-' ∉ as := fun hm =>
    absurd (digitsToNat_isDigit as a ha _ hm) (by decide)
  have hdb : '-' ∉ bs := fun hm =>
    absurd (digitsToNat_isDigit bs b hb _ hm) (by decide)
  unfold parseDayPeriods
  rw [stripDay_append]
  dsimp only
  rw [if_pos (by simp : '-' ∈ as ++ '-' :: bs),
    splitOnChar_append '-' as bs hda, splitOnChar_of_not_mem '-' bs hdb]
  dsimp only
  rw [ha, hb]

lemma parseClause_wf (d : Day) (as bs : List Char) (a b : Nat)
    (ha : digitsToNat as = some a) (hb : digitsToNat bs = some b) :
    parseClause (dayToken d ++ (as ++ '-' :: bs)) = some ⟨d, a, b, WeekType.all⟩ := by
  have h1 : '单' ∉ dayToken d ++ (as ++ '-' :: bs) := by
    intro hm
    rcases List.mem_append.mp hm with hm | hm
    · revert hm; cases d <;> decide
    · rcases List.mem_append.mp hm with hm | hm
      · exact absurd (digitsToNat_isDigit as a ha _ hm) (by decide)
      · rcases List.mem_cons.mp hm with hm | hm
        · exact absurd hm (by decide)
        · exact absurd (digitsToNat_isDigit bs b hb _ hm) (by decide)
  have h2 : '双' ∉ dayToken d ++ (as ++ '-' :: bs) := by
    intro hm
    rcases List.mem_append.mp hm with hm | hm
    · revert hm; cases d <;> decide
    · rcases List.mem_append.mp hm with hm | hm
      · exact absurd (digitsToNat_isDigit as a ha _ hm) (by decide)
      · rcases List.mem_cons.mp hm with hm | hm
        · exact absurd hm (by decide)
        · exact absurd (digitsToNat_isDigit bs b hb _ hm) (by decide)
  rw [parseClause, if_neg h1, if_neg h2]
  exact parseDayPeriods_wf .all d as bs a b ha hb

/-- C6 counterexample: the clause `周一5-2` is not rejected and not swapped;
`parse_time` emits a slot with `startPeriod = 5 > 2 = endPeriod`, so the
claimed invariant `startPeriod ≤ endPeriod` fails on the code. -/
theorem c6_descending_range_slot :
    parse_time "周一5-2".data = [⟨Day.mon, 5, 2, WeekType.all⟩] ∧ ¬ ((5 : Nat) ≤ 2) := by
  constructor
  · decide
  · decide

/-- C6 amended: `parse_time` copies the two integers of a well-formed clause
into `startPeriod` and `endPeriod` in written order, enforcing nothing: for
every day `d` and all-digit pieces `as`, `bs` with values `a`, `b`, the
clause `<day><as>-<bs>` yields exactly the slot `⟨d, a, b, all⟩`, whether or
not `a ≤ b`. -/
theorem c6_parse_keeps_pair_order (d : Day) (as bs : List Char) (a b : Nat)
    (ha : digitsToNat as = some a) (hb : digitsToNat bs = some b) :
    parse_time (dayToken d ++ (as ++ '-' :: bs)) = [⟨d, a, b, WeekType.all⟩] := by
  have hcm : '，' ∉ dayToken d ++ (as ++ '-' :: bs) := by
    intro hm
    rcases List.mem_append.mp hm with hm | hm
    · revert hm; cases d <;> decide
    · rcases List.mem_append.mp hm with hm | hm
      · exact absurd (digitsToNat_isDigit as a ha _ hm) (by decide)
      · rcases List.mem_cons.mp hm with hm | hm
        · exact absurd hm (by decide)
        · exact absurd (digitsToNat_isDigit bs b hb _ hm) (by decide)
  rw [parse_time, splitOnChar_of_not_mem _ _ hcm]
  simp [List.filterMap_cons, parseClause_wf d as bs a b ha hb]

theorem c6_parse_keeps_pair_order_witness :
    digitsToNat ['5'] = some 5 ∧ digitsToNat ['2'] = some 2 ∧
      parse_time (dayToken Day.mon ++ (['5'] ++ '-' :: ['2'])) =
        [⟨Day.mon, 5, 2, WeekType.all⟩] :=
  ⟨by decide, by decide,
    c6_parse_keeps_pair_order Day.mon ['5'] ['2'] 5 2 (by decide) (by decide)⟩

/-- C10: the parity marker is detected by containment anywhere in the clause
(every slot parsed out of a `单`-containing clause is odd — first conjunct),
every occurrence of the marker is deleted before day and period matching
(second conjunct: a clause with `单` before the day token, inside it and
inside the range still parses, to an odd slot), and when both markers occur
the odd marker wins while the remaining `双` characters make the clause
parse fail (third conjunct: such a clause never emits a slot). -/
theorem c10_parity_marker :
    (∀ l s, '单' ∈ l → parseClause l = some s → s.weekType = WeekType.odd) ∧
    parseTimeStr "单周单一1单-2" = [⟨Day.mon, 1, 2, WeekType.odd⟩] ∧
    (∀ l, '单' ∈ l → '双' ∈ l → parseClause l = none) := by
  refine ⟨?_, by decide, ?_⟩
  · intro l s h1 hp
    rw [parseClause, if_pos h1] at hp
    exact (parseDayPeriods_elim _ _ _ hp).1
  · intro l h1 h2
    rw [parseClause, if_pos h1]
    rcases hres : parseDayPeriods .odd (l.filter (fun c => c ≠ '单')) with _ | s
    · rfl
    · exfalso
      obtain ⟨-, s2, p1, p2, hst, hdash, hsp, hd1, hd2⟩ :=
        parseDayPeriods_elim _ _ _ hres
      have h2f : '双' ∈ l.filter (fun c => c ≠ '单') :=
        List.mem_filter.mpr ⟨h2, by decide⟩
      rw [stripDay_some _ _ _ hst] at h2f
      rcases List.mem_append.mp h2f with hm | hm
      · revert hm; cases s.day <;> decide
      · rcases exists_mem_splitOnChar '-' '双' s2 hm (by decide) with ⟨p, hp, hcp⟩
        rw [hsp] at hp
        rcases List.mem_cons.mp hp with hpp | hpp
        · subst hpp
          exact absurd (digitsToNat_isDigit p s.startPeriod hd1 _ hcp) (by decide)
        · rcases List.mem_cons.mp hpp with hpp | hpp
          · subst hpp
            exact absurd (digitsToNat_isDigit p s.endPeriod hd2 _ hcp) (by decide)
          · cases hpp

theorem c10_parity_marker_witness : parseClause "周一1-2单双".data = none :=
  c10_parity_marker.2.2 "周一1-2单双".data (by decide) (by decide)

/-! ### The timetable projector `create_timetable` -/

/-- One cell entry, the dict `{'course': ..., 'week': ...}` appended by
`create_timetable`. -/
structure Entry where
  course : String
  week : WeekType
  deriving DecidableEq, Repr

abbrev Cell := List Entry

/-- The inner dicts of the timetable: period number to cell, in key order
`range(1, 13)`; the outer dict: day to inner dict, in `days` order.  Python
dicts are modelled as association lists in insertion order, and access to a
missing key (`KeyError`) as `none` in `lookupA` / the append helpers. -/
abbrev Timetable := List (Day × List (Nat × Cell))

/-- `f"{course['课程名']} ({course['班号']})"`. -/
def courseLabel (c : Course) : String := c.title ++ " (" ++ c.classId ++ ")"

/-- `days = ['mon', 'tue', 'wed', 'thu', 'fri', 'sat', 'sun']`. -/
def daysList : List Day := [.mon, .tue, .wed, .thu, .fri, .sat, .sun]

/-- A timetable whose cell at `(d, p)` holds `g d p`, for every day and
every period `1..12` — the shape every timetable built by the code has. -/
def mkTT (g : Day → Nat → Cell) : Timetable :=
  daysList.map (fun d => (d, (List.range' 1 12).map (fun p => (p, g d p))))

/-- `timetable = {day: {period: [] for period in range(1, 13)} for day in days}`. -/
def timetable0 : Timetable := mkTT (fun _ _ => [])

/-- Python dict read `dict[k]`: `none` is a `KeyError`. -/
def lookupA {α β : Type} [DecidableEq α] (k : α) : List (α × β) → Option β
  | [] => none
  | (k0, v) :: rest => if k0 = k then some v else lookupA k rest

/-- `timetable[day][period]`, two dict reads. -/
def lookupTT (t : Timetable) (d : Day) (p : Nat) : Option Cell :=
  match lookupA d t with
  | none => none
  | some dt => lookupA p dt

/-- `timetable[day][period].append(e)` restricted to the inner dict: `none`
models the `KeyError` raised when `period` is not a key. -/
def dayAppend (p : Nat) (e : Entry) : List (Nat × Cell) → Option (List (Nat × Cell))
  | [] => none
  | (q, c) :: rest =>
    if q = p then some ((q, c ++ [e]) :: rest)
    else (dayAppend p e rest).map (fun r => (q, c) :: r)

/-- `timetable[day][period].append(e)`: the outer dict read plus the inner
append, `none` on a missing key at either level. -/
def ttAppend (d : Day) (p : Nat) (e : Entry) : Timetable → Option Timetable
  | [] => none
  | (d0, dt) :: rest =>
    if d0 = d then (dayAppend p e dt).map (fun r => (d0, r) :: rest)
    else (ttAppend d p e rest).map (fun r => (d0, dt) :: r)

/-- Sequential composition of fallible steps: a `for` loop whose body can
raise, `none` as soon as one step raises. -/
def optFold {α β : Type} (f : β → α → Option β) : List α → β → Option β
  | [], b => some b
  | a :: as, b =>
    match f b a with
    | none => none
    | some b2 => optFold f as b2

/-- The entry appended for a slot: the `if week_type == 'odd' / 'even' /
else` three-way branch of `create_timetable`, each appending the course
label with the corresponding week tag. -/
def entryOf (c : Course) (s : TimeSlot) : Entry :=
  match s.weekType with
  | .odd => ⟨courseLabel c, .odd⟩
  | .even => ⟨courseLabel c, .even⟩
  | .all => ⟨courseLabel c, .all⟩

/-- `for period in range(slot['start_period'], slot['end_period'] + 1):
timetable[day][period].append(...)`. -/
def fillSlot (c : Course) (t : Timetable) (s : TimeSlot) : Option Timetable :=
  optFold (fun t2 p => ttAppend s.day p (entryOf c s) t2)
    (List.range' s.startPeriod (s.endPeriod + 1 - s.startPeriod)) t

/-- `for slot in time_slots: ...` — the per-course loop body.  The source
reuses `course['_parsed_time']` when present; `preprocess_course_times`
sets that field to `parse_time(course['上课时间'])`, so both branches parse
the same string and the memoized branch is not modelled separately. -/
def fillCourse (t : Timetable) (c : Course) : Option Timetable :=
  optFold (fillSlot c) (parse_time c.time) t

/-- `create_timetable(selected_courses, lang)` without its purely
presentational `day_names` second return value: build the empty 7 x 12 grid
and fill it course by course; `none` models the `KeyError` raised when a
slot covers a period outside `1..12`. -/
def create_timetable (enrolled : List Course) : Option Timetable :=
  optFold fillCourse enrolled timetable0

/-- Spec-side cell content contributed by one course: one entry per slot of
the course whose day is `d` and whose inclusive period range contains `p`. -/
def cellOfCourse (c : Course) (d : Day) (p : Nat) : Cell :=
  (parse_time c.time).filterMap (fun s =>
    if s.day = d ∧ s.startPeriod ≤ p ∧ p ≤ s.endPeriod then some (entryOf c s) else none)

/-- Spec-side grid content: entries in enrollment order, then slot order. -/
def cellSpec (enrolled : List Course) (d : Day) (p : Nat) : Cell :=
  (enrolled.map (fun c => cellOfCourse c d p)).flatten

/-- Every period any slot of any enrolled course covers lies in `1..12`
(vacuously so for a slot with an empty descending range). -/
def periodsInRange (enrolled : List Course) : Prop :=
  ∀ c ∈ enrolled, ∀ s ∈ parse_time c.time,
    s.endPeriod < s.startPeriod ∨ (1 ≤ s.startPeriod ∧ s.endPeriod ≤ 12)

instance (enrolled : List Course) : Decidable (periodsInRange enrolled) := by
  unfold periodsInRange
  infer_instance

lemma dayAppend_mk (f : Nat → Cell) (p : Nat) (e : Entry) : ∀ (len a : Nat),
    dayAppend p e ((List.range' a len).map (fun q => (q, f q))) =
      if a ≤ p ∧ p < a + len then
        some ((List.range' a len).map (fun q => (q, if q = p then f q ++ [e] else f q)))
      else none := by
  intro len
  induction len with
  | zero =>
    intro a
    rw [if_neg (by omega)]
    rfl
  | succ n ih =>
    intro a
    rw [List.range'_succ, List.map_cons, List.map_cons, dayAppend]
    by_cases hap : a = p
    · rw [if_pos hap, if_pos (by omega), if_pos hap]
      have hmap : (List.range' (a + 1) n).map (fun q => (q, if q = p then f q ++ [e] else f q)) =
          (List.range' (a + 1) n).map (fun q => (q, f q)) := by
        apply List.map_congr_left
        intro q hq
        have := List.mem_range'_1.mp hq
        rw [if_neg (by omega)]
      rw [hmap]
    · rw [if_neg hap, ih (a + 1)]
      by_cases hc : a + 1 ≤ p ∧ p < a + 1 + n
      · rw [if_pos hc, if_pos (by omega), if_neg hap]
        rfl
      · rw [if_neg hc, if_neg (by omega)]
        rfl

lemma ttAppend_map (g : Day → Nat → Cell) (d : Day) (p : Nat) (e : Entry) :
    ∀ (ds : List Day), d ∈ ds → ds.Nodup →
    ttAppend d p e (ds.map (fun d0 => (d0, (List.range' 1 12).map (fun q => (q, g d0 q))))) =
      if 1 ≤ p ∧ p < 13 then
        some (ds.map (fun d0 => (d0, (List.range' 1 12).map
          (fun q => (q, if d0 = d ∧ q = p then g d0 q ++ [e] else g d0 q)))))
      else none := by
  intro ds
  induction ds with
  | nil => intro hd; cases hd
  | cons d0 ds ih =>
    intro hd hnd
    rw [List.map_cons, List.map_cons, ttAppend]
    by_cases h0 : d0 = d
    · rw [if_pos h0, dayAppend_mk]
      have hnotin : d0 ∉ ds := (List.nodup_cons.mp hnd).1
      by_cases hc : 1 ≤ p ∧ p < 1 + 12
      · rw [if_pos hc, if_pos (by omega)]
        have hhead : (List.range' 1 12).map (fun q => (q, if q = p then g d0 q ++ [e] else g d0 q)) =
            (List.range' 1 12).map (fun q => (q, if d0 = d ∧ q = p then g d0 q ++ [e] else g d0 q)) := by
          apply List.map_congr_left
          intro q _
          simp [h0]
        have htail : (ds.map (fun d1 => (d1, (List.range' 1 12).map (fun q => (q, g d1 q))))) =
            (ds.map (fun d1 => (d1, (List.range' 1 12).map
              (fun q => (q, if d1 = d ∧ q = p then g d1 q ++ [e] else g d1 q))))) := by
          apply List.map_congr_left
          intro d1 hd1
          have hne : d1 ≠ d := fun hh => hnotin (by rw [h0, ← hh]; exact hd1)
          congr 1
          apply List.map_congr_left
          intro q _
          rw [if_neg (by simp [hne])]
        rw [Option.map_some', hhead, htail]
      · rw [if_neg hc, if_neg (by omega)]
        rfl
    · rw [if_neg h0]
      have hd' : d ∈ ds := by
        rcases List.mem_cons.mp hd with hh | hh
        · exact absurd hh.symm h0
        · exact hh
      rw [ih hd' (List.nodup_cons.mp hnd).2]
      by_cases hc : 1 ≤ p ∧ p < 13
      · rw [if_pos hc, if_pos hc, Option.map_some']
        have hhead : (List.range' 1 12).map (fun q => (q, g d0 q)) =
            (List.range' 1 12).map
              (fun q => (q, if d0 = d ∧ q = p then g d0 q ++ [e] else g d0 q)) := by
          apply List.map_congr_left
          intro q _
          rw [if_neg (by simp [h0])]
        rw [hhead]
      · rw [if_neg hc, if_neg hc]
        rfl

lemma daysList_nodup : daysList.Nodup := by decide

lemma mem_daysList (d : Day) : d ∈ daysList := by cases d <;> decide

lemma ttAppend_mk (g : Day → Nat → Cell) (d : Day) (p : Nat) (e : Entry) :
    ttAppend d p e (mkTT g) =
      if 1 ≤ p ∧ p < 13 then
        some (mkTT (fun d2 p2 => if d2 = d ∧ p2 = p then g d2 p2 ++ [e] else g d2 p2))
      else none := by
  unfold mkTT
  exact ttAppend_map g d p e daysList (mem_daysList d) daysList_nodup

lemma lookupA_range (f : Nat → Cell) (p : Nat) : ∀ (len a : Nat),
    lookupA p ((List.range' a len).map (fun q => (q, f q))) =
      if a ≤ p ∧ p < a + len then some (f p) else none := by
  intro len
  induction len with
  | zero =>
    intro a
    rw [if_neg (by omega)]
    rfl
  | succ n ih =>
    intro a
    rw [List.range'_succ, List.map_cons, lookupA]
    by_cases hap : a = p
    · rw [hap, if_pos rfl, if_pos (by omega)]
    · rw [if_neg hap, ih (a + 1)]
      by_cases hc : a + 1 ≤ p ∧ p < a + 1 + n
      · rw [if_pos hc, if_pos (by omega)]
      · rw [if_neg hc, if_neg (by omega)]

lemma lookupTT_map (g : Day → Nat → Cell) (d : Day) (p : Nat) :
    ∀ (ds : List Day), d ∈ ds →
    lookupTT (ds.map (fun d0 => (d0, (List.range' 1 12).map (fun q => (q, g d0 q))))) d p =
      if 1 ≤ p ∧ p < 13 then some (g d p) else none := by
  intro ds
  induction ds with
  | nil => intro hd; cases hd
  | cons d0 ds ih =>
    intro hd
    rw [List.map_cons]
    unfold lookupTT
    rw [lookupA]
    by_cases h0 : d0 = d
    · rw [if_pos h0]
      dsimp only
      rw [lookupA_range, h0]
    · rw [if_neg h0]
      have hd' : d ∈ ds := by
        rcases List.mem_cons.mp hd with hh | hh
        · exact absurd hh.symm h0
        · exact hh
      exact ih hd'

lemma lookupTT_mk (g : Day → Nat → Cell) (d : Day) (p : Nat) :
    lookupTT (mkTT g) d p = if 1 ≤ p ∧ p < 13 then some (g d p) else none := by
  unfold mkTT
  exact lookupTT_map g d p daysList (mem_daysList d)

lemma mkTT_congr (g1 g2 : Day → Nat → Cell) (h : ∀ d p, g1 d p = g2 d p) :
    mkTT g1 = mkTT g2 := by
  have : g1 = g2 := funext (fun d => funext (fun p => h d p))
  rw [this]

lemma mkTT_keys (g : Day → Nat → Cell) : (mkTT g).map Prod.fst = daysList := rfl

lemma fillPeriods_mk (d : Day) (e : Entry) : ∀ (ps : List Nat) (g : Day → Nat → Cell),
    (∀ p ∈ ps, 1 ≤ p ∧ p < 13) → ps.Nodup →
    optFold (fun t2 p => ttAppend d p e t2) ps (mkTT g) =
      some (mkTT (fun d2 p2 => if d2 = d ∧ p2 ∈ ps then g d2 p2 ++ [e] else g d2 p2)) := by
  intro ps
  induction ps with
  | nil =>
    intro g _ _
    rw [optFold]
    congr 1
    apply mkTT_congr
    intro d2 p2
    rw [if_neg (by simp)]
  | cons p ps ih =>
    intro g hin hnd
    rw [optFold, ttAppend_mk, if_pos (hin p (List.mem_cons_self p ps))]
    dsimp only
    rw [ih _ (fun q hq => hin q (List.mem_cons_of_mem p hq)) (List.nodup_cons.mp hnd).2]
    congr 1
    apply mkTT_congr
    intro d2 p2
    have hpnotin : p ∉ ps := (List.nodup_cons.mp hnd).1
    by_cases hd2 : d2 = d
    · by_cases hp2 : p2 = p
      · have hno : ¬ (d2 = d ∧ p2 ∈ ps) := fun hcon => hpnotin (hp2 ▸ hcon.2)
        rw [if_neg hno, if_pos ⟨hd2, hp2⟩, if_pos ⟨hd2, by simp [hp2]⟩]
      · by_cases hp2s : p2 ∈ ps
        · rw [if_pos ⟨hd2, hp2s⟩, if_neg (by simp [hp2]),
            if_pos ⟨hd2, by simp [hp2, hp2s]⟩]
        · rw [if_neg (by simp [hp2s]), if_neg (by simp [hp2]),
            if_neg (by simp [hp2, hp2s])]
    · rw [if_neg (by simp [hd2]), if_neg (by simp [hd2]), if_neg (by simp [hd2])]

lemma fillSlot_mk (c : Course) (s : TimeSlot) (g : Day → Nat → Cell)
    (hs : s.endPeriod < s.startPeriod ∨ (1 ≤ s.startPeriod ∧ s.endPeriod ≤ 12)) :
    fillSlot c (mkTT g) s =
      some (mkTT (fun d2 p2 =>
        if s.day = d2 ∧ s.startPeriod ≤ p2 ∧ p2 ≤ s.endPeriod
        then g d2 p2 ++ [entryOf c s] else g d2 p2)) := by
  unfold fillSlot
  rw [fillPeriods_mk s.day (entryOf c s) _ g
    (fun p hp => by have := List.mem_range'_1.mp hp; omega)
    (List.nodup_range' _ _)]
  congr 1
  apply mkTT_congr
  intro d2 p2
  by_cases hd2 : d2 = s.day
  · by_cases hp : s.startPeriod ≤ p2 ∧ p2 ≤ s.endPeriod
    · rw [if_pos ⟨hd2, List.mem_range'_1.mpr (by omega)⟩,
        if_pos ⟨hd2.symm, hp.1, hp.2⟩]
    · rw [if_neg (fun hcon => hp (by have hm := List.mem_range'_1.mp hcon.2; omega)),
        if_neg (fun hcon => hp ⟨hcon.2.1, hcon.2.2⟩)]
  · rw [if_neg (fun hcon => hd2 hcon.1), if_neg (fun hcon => hd2 hcon.1.symm)]

lemma optFold_fillSlot (c : Course) : ∀ (slots : List TimeSlot) (g : Day → Nat → Cell),
    (∀ s ∈ slots, s.endPeriod < s.startPeriod ∨ (1 ≤ s.startPeriod ∧ s.endPeriod ≤ 12)) →
    optFold (fillSlot c) slots (mkTT g) =
      some (mkTT (fun d p => g d p ++ slots.filterMap (fun s =>
        if s.day = d ∧ s.startPeriod ≤ p ∧ p ≤ s.endPeriod
        then some (entryOf c s) else none))) := by
  intro slots
  induction slots with
  | nil =>
    intro g _
    rw [optFold]
    congr 1
    apply mkTT_congr
    intro d p
    simp
  | cons s slots ih =>
    intro g hin
    rw [optFold, fillSlot_mk c s g (hin s (List.mem_cons_self s slots))]
    dsimp only
    rw [ih _ (fun s2 hs2 => hin s2 (List.mem_cons_of_mem s hs2))]
    congr 1
    apply mkTT_congr
    intro d p
    rw [List.filterMap_cons]
    by_cases hcond : s.day = d ∧ s.startPeriod ≤ p ∧ p ≤ s.endPeriod
    · rw [if_pos hcond, if_pos hcond, List.append_assoc]
      rfl
    · rw [if_neg hcond, if_neg hcond]

lemma optFold_fillCourse : ∀ (courses : List Course) (g : Day → Nat → Cell),
    (∀ c ∈ courses, ∀ s ∈ parse_time c.time,
      s.endPeriod < s.startPeriod ∨ (1 ≤ s.startPeriod ∧ s.endPeriod ≤ 12)) →
    optFold fillCourse courses (mkTT g) =
      some (mkTT (fun d p => g d p ++ cellSpec courses d p)) := by
  intro courses
  induction courses with
  | nil =>
    intro g _
    rw [optFold]
    congr 1
    apply mkTT_congr
    intro d p
    simp [cellSpec]
  | cons c courses ih =>
    intro g hin
    rw [optFold]
    have hfc : fillCourse (mkTT g) c =
        some (mkTT (fun d p => g d p ++ cellOfCourse c d p)) :=
      optFold_fillSlot c (parse_time c.time) g (hin c (List.mem_cons_self c courses))
    rw [hfc]
    dsimp only
    rw [ih _ (fun c2 hc2 => hin c2 (List.mem_cons_of_mem c hc2))]
    congr 1
    apply mkTT_congr
    intro d p
    rw [List.append_assoc]
    simp only [cellSpec, List.map_cons, List.flatten_cons]

lemma create_timetable_mk (enrolled : List Course) (h : periodsInRange enrolled) :
    create_timetable enrolled = some (mkTT (cellSpec enrolled)) := by
  unfold create_timetable timetable0
  rw [optFold_fillCourse enrolled _ h]
  congr 1

/-- C3 counterexample: for the enrolled sequence holding one course meeting
`周一13-13`, `create_timetable` does not return a grid at all — it raises
`KeyError: 13` (modelled as `none`), because period 13 is not a key of the
inner dict.  The claim's universally quantified "returns a grid ..." is
therefore false as stated. -/
theorem c3_project_raises_out_of_range :
    create_timetable
      [⟨"CS501", "01", "数学科学学院", "数值分析", .num 3, "周一13-13".data, "全校学生在籍"⟩] =
      none := by decide

/-- C3 amended: for every enrolled sequence all of whose parsed slots cover
only periods in `1..12`, `create_timetable` returns the grid whose key list
is exactly the seven days, whose cell at `(d, p)` exists exactly for
`p ∈ 1..12` and holds — in enrollment order, then slot order — one entry
`{course: "<title> (<classId>)", week: parity}` for each slot whose day is
`d` and whose inclusive period range contains `p`; uncovered cells are
present and empty. -/
theorem c3_project_grid_in_range (enrolled : List Course)
    (h : periodsInRange enrolled) :
    create_timetable enrolled = some (mkTT (cellSpec enrolled)) ∧
    (mkTT (cellSpec enrolled)).map Prod.fst = daysList ∧
    (∀ d p, lookupTT (mkTT (cellSpec enrolled)) d p =
      if 1 ≤ p ∧ p ≤ 12 then some (cellSpec enrolled d p) else none) := by
  refine ⟨create_timetable_mk enrolled h, mkTT_keys _, ?_⟩
  intro d p
  rw [lookupTT_mk]
  by_cases hc : 1 ≤ p ∧ p < 13
  · rw [if_pos hc, if_pos (by omega)]
  · rw [if_neg hc, if_neg (by omega)]

theorem c3_project_grid_in_range_witness :
    (create_timetable [demoCourse]).isSome = true := by
  obtain ⟨h1, -, -⟩ := c3_project_grid_in_range [demoCourse] (by decide)
  rw [h1]
  rfl

/-- C4 counterexample: `parse_time` happily emits a slot for `周一0-1`, and
`create_timetable` on an enrolled set holding that course raises
`KeyError: 0` (modelled as `none`): the claim that projection never raises
for any enrolled set built from parsed sections is false. -/
theorem c4_create_timetable_raises_at_period_zero :
    parse_time "周一0-1".data = [⟨Day.mon, 0, 1, WeekType.all⟩] ∧
    create_timetable
      [⟨"PE100", "01", "体育教研部", "晨跑", .num 1, "周一0-1".data, "全校学生在籍"⟩] =
      none := by
  constructor
  · decide
  · decide

/-- C4 amended: `parse_time` and `check_conflict` are total by construction
(the only raise site of the parser, `int(...)`, is wrapped in
`try/except ValueError` in the source and is therefore `Option`-valued
here, and `check_conflict` only calls `parse_time` and comparisons);
`create_timetable` returns a grid — does not raise — whenever every period
covered by a parsed slot of the enrolled set lies in `1..12`. -/
theorem c4_no_raise_in_range (enrolled : List Course)
    (h : periodsInRange enrolled) : (create_timetable enrolled).isSome = true := by
  rw [create_timetable_mk enrolled h]
  rfl

/-- A second concrete catalog course for witnesses. -/
def demoCourse2 : Course :=
  ⟨"CS102", "02", "计算机学院", "Python编程", .num 2, "周二3-4双，周五11-12".data,
    "全校学生在籍"⟩

theorem c4_no_raise_in_range_witness :
    (create_timetable [demoCourse2]).isSome = true :=
  c4_no_raise_in_range [demoCourse2] (by decide)

/-! ### Credits and the enrollment command -/

/-- Python `float(s)` on the decimal shapes that occur in a credit cell:
`<digits>` or `<digits>.<digits>`; every other text raises `ValueError`
(`none`).  (`float` also accepts signs, exponents and a leading or trailing
bare point; none of those shapes matters to any claim, which only needs
that some text cell raises.) -/
def strToRat (s : List Char) : Option ℚ :=
  match splitOnChar '.' s with
  | [ip] => (digitsToNat ip).map (fun n => (n : ℚ))
  | [ip, fp] =>
    match digitsToNat ip, digitsToNat fp with
    | some n, some f => some ((n : ℚ) + (f : ℚ) / ((10 : ℚ) ^ fp.length))
    | _, _ => none
  | _ => none

/-- `float(course.get('参考学分', 0))`: a missing key becomes `float(0)`,
a number is itself, a text cell goes through `float(...)` and may raise. -/
def pyFloatCredit : CreditVal → Option ℚ
  | .num q => some q
  | .missing => some 0
  | .text s => strToRat s.data

/-- `sum(float(course.get('参考学分', 0)) for course in selected_courses)`
(line 623): the first `ValueError` aborts the sum; grouping of the
additions differs from Python's left fold but rational addition is
associative and commutative, and the `none` cases coincide. -/
def totalCredits : List Course → Option ℚ
  | [] => some 0
  | c :: rest =>
    match pyFloatCredit c.credit, totalCredits rest with
    | some x, some r => some (x + r)
    | _, _ => none

/-- `max_credits = 25 if degree_type == "single" else 30` (line 620). -/
def max_credits (dt : DegreeType) : ℚ :=
  match dt with
  | .single => 25
  | .double => 30

/-- The credit cell is a number or a missing key (no text). -/
def isNumOrMissing : CreditVal → Bool
  | .text _ => false
  | _ => true

/-- Spec-side credit sum: each Section's credit value, a missing one as 0. -/
def sumSpec : List Course → ℚ
  | [] => 0
  | c :: rest => (match c.credit with | .num q => q | _ => 0) + sumSpec rest

/-- The `Select` button handler (lines 737-748): run `check_conflict`; on a
truthy result (`if conflict_course:`) refuse with the conflicting title, on
a falsy result — `None`, but also the empty string — append the candidate
to `st.session_state.selected_courses`. -/
def attemptEnroll (enrolled : List Course) (cand : Course) : Except String (List Course) :=
  match check_conflict cand.time enrolled with
  | some t => if t ≠ "" then .error t else .ok (enrolled ++ [cand])
  | none => .ok (enrolled ++ [cand])

/-- C7 counterexample: a course whose credit cell is the text `三学分` makes
the credit sum raise `ValueError` (modelled as `none`) instead of counting
the non-numeric credit as 0 — the claim's "treating a non-numeric credit as 0
and never raises" is false on the code. -/
theorem c7_nonnumeric_credit_raises :
    totalCredits
      [⟨"GE300", "01", "元培学院", "通识讲座", .text "三学分", "周三7-8".data,
        "全校学生在籍"⟩] = none := by decide

lemma totalCredits_of_numOrMissing (enrolled : List Course)
    (h : ∀ c ∈ enrolled, isNumOrMissing c.credit = true) :
    totalCredits enrolled = some (sumSpec enrolled) := by
  induction enrolled with
  | nil => rfl
  | cons c rest ih =>
    have hc := h c (List.mem_cons_self c rest)
    rw [totalCredits, sumSpec, ih (fun c2 h2 => h c2 (List.mem_cons_of_mem c h2))]
    cases hcred : c.credit with
    | num q => rfl
    | text s => rw [hcred] at hc; simp [isNumOrMissing] at hc
    | missing => rfl

/-- C7 amended: when every member's credit cell is a number or a missing
key, `totalCredits` returns the sum of the credit values with a missing one
counted as 0 and does not raise; a non-numeric text cell instead raises
`ValueError` (`float(...)` at line 623). -/
theorem c7_total_credits_sum (enrolled : List Course)
    (h : ∀ c ∈ enrolled, isNumOrMissing c.credit = true) :
    totalCredits enrolled = some (sumSpec enrolled) :=
  totalCredits_of_numOrMissing enrolled h

theorem c7_total_credits_sum_witness :
    totalCredits [demoCourse, demoCourse2] = some (sumSpec [demoCourse, demoCourse2]) :=
  c7_total_credits_sum [demoCourse, demoCourse2] (by decide)

/-- A course with an empty title, and a candidate clashing with it. -/
def emptyTitleCourse : Course :=
  ⟨"XX001", "01", "某院系", "", .num 1, "周一1-2".data, "全校学生在籍"⟩

def clashCand : Course :=
  ⟨"XX002", "01", "某院系", "体操", .num 1, "周一1-2".data, "全校学生在籍"⟩

/-- C8 counterexample: `check_conflict` reports a time conflict (it returns
the colliding course's title, here the empty string), yet the enrollment
handler's truthiness test `if conflict_course:` treats `""` as no conflict
and appends the candidate — so "refuses iff findConflict reports a time
conflict" is false as stated. -/
theorem c8_empty_title_conflict_enrolls :
    check_conflict clashCand.time [emptyTitleCourse] = some "" ∧
    attemptEnroll [emptyTitleCourse] clashCand = .ok [emptyTitleCourse, clashCand] := by
  constructor
  · rfl
  · rfl

/-- C8 amended: exceeding the credit cap never causes a rejection — even
when `totalCredits` exceeds the degree cap, `attemptEnroll` succeeds
whenever `check_conflict` returns `none` and refuses exactly the conflicts
reported with a nonempty title (a reported conflict whose section title is
the empty string erroneously slips through the Python truthiness test). -/
theorem c8_cap_never_blocks (enrolled : List Course) (cand : Course)
    (dt : DegreeType) (t : ℚ) (hc : totalCredits enrolled = some t)
    (hover : max_credits dt < t) :
    (check_conflict cand.time enrolled = none →
      attemptEnroll enrolled cand = .ok (enrolled ++ [cand])) ∧
    (∀ t2, check_conflict cand.time enrolled = some t2 → t2 ≠ "" →
      attemptEnroll enrolled cand = .error t2) := by
  constructor
  · intro hnone
    unfold attemptEnroll
    rw [hnone]
  · intro t2 hsome hne
    unfold attemptEnroll
    rw [hsome]
    dsimp only
    rw [if_pos hne]

/-- Scenario D data: two enrolled courses totalling 27 credits. -/
def heavyA : Course :=
  ⟨"MA301", "01", "数学科学学院", "实变函数", .num 13, "周一3-4".data, "全校学生在籍"⟩

def heavyB : Course :=
  ⟨"MA302", "01", "数学科学学院", "泛函分析", .num 14, "周二3-4".data, "全校学生在籍"⟩

def candD : Course :=
  ⟨"MA303", "01", "数学科学学院", "拓扑学", .num 3, "周三3-4".data, "全校学生在籍"⟩

theorem c8_cap_never_blocks_witness :
    attemptEnroll [heavyA, heavyB] candD = .ok [heavyA, heavyB, candD] :=
  (c8_cap_never_blocks [heavyA, heavyB] candD DegreeType.single 27
    (by rw [totalCredits_of_numOrMissing [heavyA, heavyB] (by decide)]
        norm_num [sumSpec, heavyA, heavyB])
    (by norm_num [max_credits])).1 (by decide)

/-! ### Session state: the enrolled list and its evolution -/

/-- The identifying pair `(课程号, 班号)` of a section. -/
def courseKey (c : Course) : String × String := (c.courseId, c.classId)

/-- The states `st.session_state.selected_courses` can reach: it starts
empty; the `Select` handler appends the clicked catalog course when
`attemptEnroll` succeeds; the `Cancel` handler pops the course at a given
position (`selected_courses.pop(idx)`, i.e. `eraseIdx`). -/
inductive Reachable (catalog : List Course) : List Course → Prop where
  | nil : Reachable catalog []
  | enroll {l : List Course} {s : Course} {l2 : List Course} :
      Reachable catalog l → s ∈ catalog → attemptEnroll l s = .ok l2 →
      Reachable catalog l2
  | drop {l : List Course} (i : Nat) :
      Reachable catalog l → Reachable catalog (l.eraseIdx i)

lemma attemptEnroll_ok (l : List Course) (s : Course) (l2 : List Course)
    (h : attemptEnroll l s = .ok l2) :
    l2 = l ++ [s] ∧
      (check_conflict s.time l = none ∨ check_conflict s.time l = some "") := by
  unfold attemptEnroll at h
  rcases hc : check_conflict s.time l with _ | t <;> rw [hc] at h
  · exact ⟨(Except.ok.inj h).symm, Or.inl rfl⟩
  · dsimp only at h
    by_cases ht : t ≠ ""
    · rw [if_pos ht] at h
      exact Except.noConfusion h
    · rw [if_neg ht] at h
      push_neg at ht
      exact ⟨(Except.ok.inj h).symm, Or.inr (ht ▸ rfl)⟩

lemma check_conflict_some_title (cand : List Char) (l : List Course) (t : String)
    (h : check_conflict cand l = some t) : ∃ c ∈ l, c.title = t := by
  rw [check_conflict_eq_find] at h
  obtain ⟨c, hfind, ht⟩ := Option.map_eq_some'.mp h
  exact ⟨c, List.mem_of_find?_eq_some hfind, ht⟩

/-- A course with no parseable meeting time. -/
def noTimeCourse : Course :=
  ⟨"GE100", "01", "教务部", "新生讲座", .num 0, "待定".data, "全校学生在籍"⟩

/-- C5 counterexample: starting from the empty enrolled list over a catalog
holding one slot-less course, clicking `Select` twice appends the same
course twice — `check_conflict` exits early with `None` because the
candidate has no parsed slots — so a reachable enrolled list holds two
members with the same `(courseId, classId)`, refuting the claimed
invariant. -/
theorem c5_duplicate_reachable :
    Reachable [noTimeCourse] [noTimeCourse, noTimeCourse] ∧
    ¬ ([noTimeCourse, noTimeCourse].Pairwise
        (fun a b => courseKey a ≠ courseKey b)) := by
  constructor
  · have h1 : Reachable [noTimeCourse] [noTimeCourse] :=
      Reachable.enroll Reachable.nil (List.mem_cons_self _ _) rfl
    exact Reachable.enroll h1 (List.mem_cons_self _ _) rfl
  · intro hp
    exact (List.pairwise_cons.mp hp).1 noTimeCourse (List.mem_cons_self _ _) rfl

/-- C5 amended: over a catalog with pairwise distinct `(courseId, classId)`
keys and nonempty titles, every reachable enrolled list satisfies: any two
members sharing a key are the very same catalog course, and that course's
parsed slots all have `endPeriod < startPeriod` — so only a course with no
self-overlapping slot (in particular a slot-less course) can appear twice.
Duplicates of courses with at least one well-formed slot are impossible
because such a candidate conflicts with its own earlier copy and is
refused. -/
theorem c5_no_duplicate_amended (catalog l : List Course)
    (huniq : ∀ a ∈ catalog, ∀ b ∈ catalog, courseKey a = courseKey b → a = b)
    (htitle : ∀ a ∈ catalog, a.title ≠ "")
    (h : Reachable catalog l) :
    l.Pairwise (fun a b => courseKey a = courseKey b →
      a = b ∧ ∀ s ∈ parse_time a.time, s.endPeriod < s.startPeriod) := by
  have main : (∀ a ∈ l, a ∈ catalog) ∧
      l.Pairwise (fun a b => courseKey a = courseKey b →
        a = b ∧ ∀ s ∈ parse_time a.time, s.endPeriod < s.startPeriod) := by
    induction h with
    | nil => exact ⟨fun a ha => absurd ha (List.not_mem_nil a), List.Pairwise.nil⟩
    | @enroll l s l2 hr hmem hok ih =>
      obtain ⟨hsub, hpw⟩ := ih
      obtain ⟨rfl, hcond⟩ := attemptEnroll_ok l s l2 hok
      constructor
      · intro a ha
        rcases List.mem_append.mp ha with ha | ha
        · exact hsub a ha
        · rw [List.mem_singleton.mp ha]
          exact hmem
      · rw [List.pairwise_append]
        refine ⟨hpw, List.pairwise_singleton _ _, ?_⟩
        intro a ha b hb
        rw [List.mem_singleton.mp hb]
        intro hkey
        have haeq : a = s := huniq a (hsub a ha) s hmem hkey
        subst haeq
        refine ⟨rfl, ?_⟩
        intro sl hsl
        by_contra hge
        push_neg at hge
        rcases hcond with hnone | hempty
        · rw [check_conflict_eq_find] at hnone
          have hall := List.find?_eq_none.mp (Option.map_eq_none'.mp hnone)
          refine hall a ha ?_
          exact (slotsConflict_iff _ _).mpr ⟨sl, hsl, sl, hsl, rfl, hge, hge, by
            rintro (⟨h1, h2⟩ | ⟨h1, h2⟩) <;> (rw [h1] at h2; cases h2)⟩
        · obtain ⟨c, hcl, hct⟩ := check_conflict_some_title _ _ _ hempty
          exact htitle c (hsub c hcl) hct
    | @drop l i hr ih =>
      obtain ⟨hsub, hpw⟩ := ih
      exact ⟨fun a ha => hsub a ((List.eraseIdx_sublist l i).subset ha),
        hpw.sublist (List.eraseIdx_sublist l i)⟩
  exact main.2

theorem c5_no_duplicate_amended_witness :
    ([demoCourse, demoCourse2] : List Course).Pairwise
      (fun a b => courseKey a = courseKey b →
        a = b ∧ ∀ s ∈ parse_time a.time, s.endPeriod < s.startPeriod) := by
  apply c5_no_duplicate_amended [demoCourse, demoCourse2]
  · intro a ha b hb hkey
    fin_cases ha <;> fin_cases hb <;> first | rfl | exact absurd hkey (by decide)
  · intro a ha
    fin_cases ha <;> decide
  · exact Reachable.enroll
      (Reachable.enroll Reachable.nil (List.mem_cons_self _ _) rfl)
      (List.mem_cons_of_mem _ (List.mem_cons_self _ _)) rfl

/-! ### Catalog ingestion: the `(课程号, 班号)` merge of `load_data` /
`convert_excel_to_parquet` -/

/-- `pandas.Series.unique` as used on the eligibility column: keep the
first occurrence of each value, in order of appearance. -/
def pdUniqueGo {α : Type} [DecidableEq α] (seen : List α) : List α → List α
  | [] => []
  | x :: xs => if x ∈ seen then pdUniqueGo seen xs else x :: pdUniqueGo (x :: seen) xs

def pdUnique {α : Type} [DecidableEq α] (l : List α) : List α := pdUniqueGo [] l

/-- Index of the first occurrence of `x` (length of the list when absent). -/
def firstIdx {α : Type} [DecidableEq α] (x : α) : List α → Nat
  | [] => 0
  | y :: ys => if y = x then 0 else firstIdx x ys + 1

lemma pdUniqueGo_mem {α : Type} [DecidableEq α] :
    ∀ (l seen : List α) (x : α), x ∈ pdUniqueGo seen l ↔ x ∈ l ∧ x ∉ seen := by
  intro l
  induction l with
  | nil => intro seen x; simp [pdUniqueGo]
  | cons y ys ih =>
    intro seen x
    rw [pdUniqueGo]
    by_cases hy : y ∈ seen
    · rw [if_pos hy, ih]
      constructor
      · rintro ⟨h1, h2⟩
        exact ⟨List.mem_cons_of_mem y h1, h2⟩
      · rintro ⟨h1, h2⟩
        rcases List.mem_cons.mp h1 with h1 | h1
        · exact absurd (h1 ▸ hy) h2
        · exact ⟨h1, h2⟩
    · rw [if_neg hy]
      constructor
      · intro hx
        rcases List.mem_cons.mp hx with h1 | h1
        · subst h1
          exact ⟨List.mem_cons_self _ _, hy⟩
        · obtain ⟨h2, h3⟩ := (ih (y :: seen) x).mp h1
          exact ⟨List.mem_cons_of_mem y h2,
            fun hs => h3 (List.mem_cons_of_mem y hs)⟩
      · rintro ⟨h1, h2⟩
        rcases List.mem_cons.mp h1 with h1 | h1
        · subst h1
          exact List.mem_cons_self _ _
        · by_cases hxy : x = y
          · subst hxy
            exact List.mem_cons_self _ _
          · refine List.mem_cons_of_mem _ ((ih (y :: seen) x).mpr ⟨h1, ?_⟩)
            intro hs
            rcases List.mem_cons.mp hs with hs | hs
            · exact hxy hs
            · exact h2 hs

lemma pdUniqueGo_nodup {α : Type} [DecidableEq α] :
    ∀ (l seen : List α), (pdUniqueGo seen l).Nodup := by
  intro l
  induction l with
  | nil => intro seen; exact List.nodup_nil
  | cons y ys ih =>
    intro seen
    rw [pdUniqueGo]
    by_cases hy : y ∈ seen
    · rw [if_pos hy]
      exact ih seen
    · rw [if_neg hy]
      refine List.nodup_cons.mpr ⟨?_, ih (y :: seen)⟩
      intro hmem
      exact ((pdUniqueGo_mem ys (y :: seen) y).mp hmem).2 (List.mem_cons_self _ _)

lemma pdUnique_mem {α : Type} [DecidableEq α] (l : List α) (x : α) :
    x ∈ pdUnique l ↔ x ∈ l := by
  rw [pdUnique, pdUniqueGo_mem]
  simp

lemma pdUnique_nodup {α : Type} [DecidableEq α] (l : List α) : (pdUnique l).Nodup :=
  pdUniqueGo_nodup l []

lemma firstIdx_cons_ne {α : Type} [DecidableEq α] (x y : α) (ys : List α)
    (h : x ≠ y) : firstIdx x (y :: ys) = firstIdx x ys + 1 := by
  rw [firstIdx, if_neg (fun hh => h hh.symm)]

lemma pdUniqueGo_firstIdx {α : Type} [DecidableEq α] :
    ∀ (l seen : List α),
    (pdUniqueGo seen l).Pairwise (fun a b => firstIdx a l < firstIdx b l) := by
  intro l
  induction l with
  | nil => intro seen; exact List.Pairwise.nil
  | cons y ys ih =>
    intro seen
    rw [pdUniqueGo]
    by_cases hy : y ∈ seen
    · rw [if_pos hy]
      refine (ih seen).imp_of_mem ?_
      intro a b ha hb hlt
      have hay : a ≠ y := fun hh =>
        ((pdUniqueGo_mem ys seen a).mp ha).2 (hh ▸ hy)
      have hby : b ≠ y := fun hh =>
        ((pdUniqueGo_mem ys seen b).mp hb).2 (hh ▸ hy)
      rw [firstIdx_cons_ne a y ys hay, firstIdx_cons_ne b y ys hby]
      omega
    · rw [if_neg hy]
      refine List.pairwise_cons.mpr ⟨?_, ?_⟩
      · intro b hb
        have hby : b ≠ y := fun hh =>
          ((pdUniqueGo_mem ys (y :: seen) b).mp hb).2 (hh ▸ List.mem_cons_self y seen)
        rw [firstIdx, if_pos rfl, firstIdx_cons_ne b y ys hby]
        omega
      · refine (ih (y :: seen)).imp_of_mem ?_
        intro a b ha hb hlt
        have hay : a ≠ y := fun hh =>
          ((pdUniqueGo_mem ys (y :: seen) a).mp ha).2 (hh ▸ List.mem_cons_self y seen)
        have hby : b ≠ y := fun hh =>
          ((pdUniqueGo_mem ys (y :: seen) b).mp hb).2 (hh ▸ List.mem_cons_self y seen)
        rw [firstIdx_cons_ne a y ys hay, firstIdx_cons_ne b y ys hby]
        omega

lemma pdUnique_firstIdx {α : Type} [DecidableEq α] (l : List α) :
    (pdUnique l).Pairwise (fun a b => firstIdx a l < firstIdx b l) :=
  pdUniqueGo_firstIdx l []

/-- The rows of one `groupby(['课程号', '班号'])` group, in original row
order (pandas keeps the source order of rows inside a group). -/
def groupRows (rows : List Course) (k : String × String) : List Course :=
  rows.filter (fun r => decide (courseKey r = k))

/-- Spec-side merged eligibility text of a group: the `，`-join of the
distinct eligibility texts, first occurrence first —
`'，'.join(group['修读对象'].astype(str).unique())`. -/
def eligMerge (rows : List Course) (k : String × String) : String :=
  String.intercalate "，" (pdUnique ((groupRows rows k).map (fun r => r.elig)))

/-- The per-group body of the merge loop: `row = group.iloc[0].copy()`, and
when the group has more than one row,
`row['修读对象'] = '，'.join(group['修读对象'].astype(str).unique())`. -/
def mergeGroup (rows : List Course) (k : String × String) : Option Course :=
  match groupRows rows k with
  | [] => none
  | r0 :: rest =>
    some (if rest = [] then r0
          else { r0 with
                 elig := String.intercalate "，" (pdUnique ((r0 :: rest).map (fun r => r.elig))) })

/-- Lexicographic comparison of character lists (Python string `<=`). -/
def charsLe : List Char → List Char → Bool
  | [], _ => true
  | _ :: _, [] => false
  | a :: as, b :: bs => if a = b then charsLe as bs else decide (a < b)

/-- `groupby` sorts groups by key: lexicographic on `(课程号, 班号)`. -/
def keyLeB (a b : String × String) : Bool :=
  if a.1 = b.1 then charsLe a.2.data b.2.data else charsLe a.1.data b.1.data

instance : DecidableRel (fun a b : String × String => keyLeB a b = true) :=
  fun _ _ => inferInstanceAs (Decidable (_ = true))

/-- The (sorted, duplicate-free) group keys iterated by
`for _, group in grouped`. -/
def sortedKeys (rows : List Course) : List (String × String) :=
  List.insertionSort (fun a b => keyLeB a b = true) (pdUnique (rows.map courseKey))

/-- The merge step shared by `load_data` (lines 152-164) and
`convert_excel_to_parquet` (lines 30-43): group the source rows by
`(课程号, 班号)`, take each group's first row, and concatenate the distinct
eligibility texts.  File reading and the Parquet cache are I/O outside the
model. -/
def load_dedup (rows : List Course) : List Course :=
  (sortedKeys rows).filterMap (mergeGroup rows)

lemma mergeGroup_some (rows : List Course) (k : String × String) (r0 : Course)
    (rest : List Course) (hg : groupRows rows k = r0 :: rest) :
    mergeGroup rows k = some { r0 with elig := eligMerge rows k } := by
  unfold mergeGroup
  rw [hg]
  dsimp only
  by_cases hr : rest = []
  · subst hr
    rw [if_pos rfl]
    unfold eligMerge
    rw [hg]
    rfl
  · rw [if_neg hr]
    unfold eligMerge
    rw [hg]

lemma mergeGroup_none_iff (rows : List Course) (k : String × String) :
    mergeGroup rows k = none ↔ groupRows rows k = [] := by
  unfold mergeGroup
  rcases hg : groupRows rows k with _ | ⟨r0, rest⟩ <;> simp

lemma mergeGroup_key (rows : List Course) (k : String × String) (o : Course)
    (h : mergeGroup rows k = some o) :
    courseKey o = k ∧ o.elig = eligMerge rows k := by
  rcases hg : groupRows rows k with _ | ⟨r0, rest⟩
  · rw [mergeGroup, hg] at h
    cases h
  · rw [mergeGroup_some rows k r0 rest hg] at h
    obtain rfl := (Option.some.inj h).symm
    have hr0 : r0 ∈ groupRows rows k := hg ▸ List.mem_cons_self r0 rest
    have hkey : courseKey r0 = k :=
      of_decide_eq_true (List.mem_filter.mp hr0).2
    exact ⟨hkey, rfl⟩

lemma filterMap_key_count (rows : List Course) (k : String × String) :
    ∀ (keys : List (String × String)), keys.Nodup → k ∈ keys →
    groupRows rows k ≠ [] →
    ((keys.filterMap (mergeGroup rows)).filter
      (fun o => decide (courseKey o = k))).length = 1 := by
  intro keys
  induction keys with
  | nil => intro _ hk; cases hk
  | cons k0 ks ih =>
    intro hnd hk hne
    rw [List.filterMap_cons]
    have hk0notin : k0 ∉ ks := (List.nodup_cons.mp hnd).1
    by_cases hkk : k = k0
    · subst hkk
      rcases hg : groupRows rows k with _ | ⟨r0, rest⟩
      · exact absurd hg hne
      rw [mergeGroup_some rows k r0 rest hg]
      have hokey : courseKey { r0 with elig := eligMerge rows k } = k :=
        (mergeGroup_key rows k _ (mergeGroup_some rows k r0 rest hg)).1
      rw [List.filter_cons, if_pos (by rw [decide_eq_true_eq]; exact hokey)]
      have hrest : ((ks.filterMap (mergeGroup rows)).filter
          (fun o => decide (courseKey o = k))) = [] := by
        rw [List.filter_eq_nil_iff]
        intro o ho
        obtain ⟨k2, hk2, hm2⟩ := List.mem_filterMap.mp ho
        have hkey2 := (mergeGroup_key rows k2 o hm2).1
        rw [decide_eq_true_eq, hkey2]
        intro hcon
        exact hk0notin (hcon ▸ hk2)
      rw [List.length_cons, hrest]
      rfl
    · have hks : k ∈ ks := by
        rcases List.mem_cons.mp hk with hh | hh
        · exact absurd hh hkk
        · exact hh
      rcases hm0 : mergeGroup rows k0 with _ | o0
      · exact ih (List.nodup_cons.mp hnd).2 hks hne
      · have hokey0 := (mergeGroup_key rows k0 o0 hm0).1
        rw [List.filter_cons, if_neg (by
          rw [decide_eq_true_eq, hokey0]
          exact fun hcon => hkk hcon.symm)]
        exact ih (List.nodup_cons.mp hnd).2 hks hne

/-- C9: catalog ingestion collapses all source rows sharing a
`(courseId, classId)` key into exactly one course (first conjunct: the
deduplicated output holds exactly one course with that key, for every key
occurring in the source), whose eligibility text is the `，`-join of the
group's distinct eligibility texts (second conjunct), where that list of
distinct texts contains each source text exactly once (`Nodup` plus the
membership equivalence) in order of first occurrence among the group's rows
(the `firstIdx` pairwise ordering). -/
theorem c9_dedup_merge (rows : List Course) (k : String × String)
    (hk : ∃ r ∈ rows, courseKey r = k) :
    ((load_dedup rows).filter (fun o => decide (courseKey o = k))).length = 1 ∧
    (∀ o ∈ load_dedup rows, courseKey o = k → o.elig = eligMerge rows k) ∧
    (pdUnique ((groupRows rows k).map (fun r => r.elig))).Nodup ∧
    (∀ x, x ∈ pdUnique ((groupRows rows k).map (fun r => r.elig)) ↔
      x ∈ (groupRows rows k).map (fun r => r.elig)) ∧
    (pdUnique ((groupRows rows k).map (fun r => r.elig))).Pairwise
      (fun a b => firstIdx a ((groupRows rows k).map (fun r => r.elig)) <
        firstIdx b ((groupRows rows k).map (fun r => r.elig))) := by
  obtain ⟨r, hr, hrk⟩ := hk
  have hperm := List.perm_insertionSort
    (fun a b : String × String => keyLeB a b = true) (pdUnique (rows.map courseKey))
  have hndkeys : (sortedKeys rows).Nodup :=
    (hperm.symm.nodup_iff).mp (pdUnique_nodup (rows.map courseKey))
  have hkmem : k ∈ sortedKeys rows := by
    apply hperm.mem_iff.mpr
    rw [pdUnique_mem]
    exact List.mem_map.mpr ⟨r, hr, hrk⟩
  have hgne : groupRows rows k ≠ [] := by
    intro hnil
    have : r ∈ groupRows rows k :=
      List.mem_filter.mpr ⟨hr, by rw [decide_eq_true_eq]; exact hrk⟩
    rw [hnil] at this
    cases this
  refine ⟨filterMap_key_count rows k (sortedKeys rows) hndkeys hkmem hgne, ?_,
    pdUnique_nodup _, fun x => by rw [pdUnique_mem], pdUnique_firstIdx _⟩
  intro o ho hok
  obtain ⟨k2, _, hm2⟩ := List.mem_filterMap.mp ho
  obtain ⟨hkey2, helig2⟩ := mergeGroup_key rows k2 o hm2
  rw [helig2, hkey2.symm.trans hok]

/-- Scenario A data: two source rows for `(CS101, 01)` with different
eligibility texts. -/
def rowA : Course :=
  ⟨"CS101", "01", "信息科学技术学院", "程序设计", .num 3, "周一1-2".data, "CS students"⟩

def rowB : Course :=
  ⟨"CS101", "01", "信息科学技术学院", "程序设计", .num 3, "周一1-2".data,
    "open to entire school"⟩

theorem c9_dedup_merge_witness :
    ((load_dedup [rowA, rowB]).filter
      (fun o => decide (courseKey o = ("CS101", "01")))).length = 1 :=
  (c9_dedup_merge [rowA, rowB] ("CS101", "01")
    ⟨rowA, List.mem_cons_self _ _, rfl⟩).1
